import Mathlib

/-!
Shallow embedding of the HTTP wire-format layer of the repository
(`src/http.rs`): the request parser built from nom combinators and the
response serializer.  Byte buffers (`&[u8]`, `Vec<u8>`) are modelled as
`List Nat`, one entry per byte; Rust `String`s are modelled by their byte
sequences (all strings handled by this program are ASCII, where one char is
one byte).  A parser `&[u8] -> IResult<&[u8], T>` becomes
`List Nat → Option (List Nat × T)` returning the unconsumed remainder and the
value, `none` being a parse error.
-/

namespace Http

/-- Byte sequence of an ASCII string literal (one char is one byte). -/
def strBytes (s : String) : List Nat := s.data.map Char.toNat

/-- ASCII lower-casing of one byte: models Rust `str::to_lowercase` on the
ASCII strings this program passes to it. -/
def lowerChar (c : Nat) : Nat := if 65 ≤ c ∧ c ≤ 90 then c + 32 else c

/-- ASCII lower-casing of a byte string. -/
def lowerBytes (l : List Nat) : List Nat := l.map lowerChar

/-- `is_whitespace` from `http.rs`: space, tab, CR, LF. -/
def is_whitespace (c : Nat) : Bool := c == 32 || c == 9 || c == 13 || c == 10

/-- `is_header_key` from `http.rs`: ASCII letter or hyphen. -/
def is_header_key (c : Nat) : Bool :=
  (65 ≤ c && c ≤ 90) || (97 ≤ c && c ≤ 122) || c == 45

/-- Character class of nom `space1`: space or tab. -/
def is_space (c : Nat) : Bool := c == 32 || c == 9

/-- Character class of nom `digit1`: ASCII digit. -/
def is_digit (c : Nat) : Bool := 48 ≤ c && c ≤ 57

/-- nom `tag`: match a literal byte sequence at the current position. -/
def tagP (t input : List Nat) : Option (List Nat × List Nat) :=
  if t.isPrefixOf input then some (input.drop t.length, t) else none

/-- nom `take_while1`: longest run of bytes satisfying `p`, at least one. -/
def takeWhile1P (p : Nat → Bool) (input : List Nat) : Option (List Nat × List Nat) :=
  if input.takeWhile p = [] then none
  else some (input.dropWhile p, input.takeWhile p)

/-- nom `take_till`: always succeeds, taking bytes while `p` is false. -/
def takeTillP (p : Nat → Bool) (input : List Nat) : List Nat × List Nat :=
  (input.dropWhile (fun c => !p c), input.takeWhile (fun c => !p c))

/-- Index of the first occurrence of `t` as a contiguous subsequence. -/
def findSub (t : List Nat) : List Nat → Option Nat
  | [] => if t = [] then some 0 else none
  | c :: rest => if t.isPrefixOf (c :: rest) then some 0 else (findSub t rest).map (· + 1)

/-- nom `take_until1`: the bytes before the first occurrence of `t`; fails
when `t` is absent or occurs immediately (empty take). -/
def takeUntil1P (t input : List Nat) : Option (List Nat × List Nat) :=
  match findSub t input with
  | none => none
  | some 0 => none
  | some (i + 1) => some (input.drop (i + 1), input.take (i + 1))

/-- Numeric value of a decimal digit string (the accumulator of
`str::parse`). -/
def digitsToNat (l : List Nat) : Nat := l.foldl (fun a c => a * 10 + (c - 48)) 0

/-- Rust `str::parse::<u8>` applied to a digit run produced by `digit1`:
checked, fails above 255, never wraps. -/
def parseU8 (l : List Nat) : Option Nat :=
  if digitsToNat l ≤ 255 then some (digitsToNat l) else none

/-- Fuelled helper for decimal rendering; the fuel `n + 1` always suffices. -/
def natDecAux : Nat → Nat → List Nat
  | 0, _ => []
  | fuel + 1, n => if n < 10 then [n + 48] else natDecAux fuel (n / 10) ++ [n % 10 + 48]

/-- Decimal digit bytes of `n` (Rust `Display` for unsigned integers). -/
def natDec (n : Nat) : List Nat := natDecAux (n + 1) n

/-- `Method` from `http.rs`. -/
inductive Method where
  | Get
  | Head
  | Post
  | Put
  | Delete
  | Connect
  | Options
  | Trace
  | Patch
deriving DecidableEq

/-- The literal token of each method, as used by the `tag` combinators of
`Method::parser`. -/
def Method.render : Method → List Nat
  | .Get => strBytes "GET"
  | .Head => strBytes "HEAD"
  | .Post => strBytes "POST"
  | .Put => strBytes "PUT"
  | .Delete => strBytes "DELETE"
  | .Connect => strBytes "CONNECT"
  | .Options => strBytes "OPTIONS"
  | .Trace => strBytes "TRACE"
  | .Patch => strBytes "PATCH"

/-- nom `value(v, tag(t))`. -/
def valueTag {α : Type} (v : α) (t input : List Nat) : Option (List Nat × α) :=
  (tagP t input).map fun r => (r.1, v)

/-- `Method::parser`: `alt` over the nine method tags, in source order. -/
def Method.parser (input : List Nat) : Option (List Nat × Method) :=
  valueTag Method.Get (strBytes "GET") input <|>
  valueTag Method.Head (strBytes "HEAD") input <|>
  valueTag Method.Post (strBytes "POST") input <|>
  valueTag Method.Put (strBytes "PUT") input <|>
  valueTag Method.Delete (strBytes "DELETE") input <|>
  valueTag Method.Connect (strBytes "CONNECT") input <|>
  valueTag Method.Options (strBytes "OPTIONS") input <|>
  valueTag Method.Trace (strBytes "TRACE") input <|>
  valueTag Method.Patch (strBytes "PATCH") input

/-- `Version` from `http.rs` (`major`, `minor` are `u8`; the parser only ever
produces values `≤ 255`). -/
structure Version where
  major : Nat
  minor : Nat
deriving DecidableEq

/-- `Version::parser`: `HTTP/` then `digit1` as `u8`, `.`, `digit1` as `u8`. -/
def Version.parser (input : List Nat) : Option (List Nat × Version) := do
  let (r1, _) ← tagP (strBytes "HTTP/") input
  let (r2, majS) ← takeWhile1P is_digit r1
  let major ← parseU8 majS
  let (r3, _) ← tagP (strBytes ".") r2
  let (r4, minS) ← takeWhile1P is_digit r3
  let minor ← parseU8 minS
  pure (r4, ⟨major, minor⟩)

/-- `RequestLine` from `http.rs`; `path` is the byte sequence of the `String`. -/
structure RequestLine where
  method : Method
  path : List Nat
  version : Version
deriving DecidableEq

/-- `RequestLine::parser`: method, `space1`, `take_till(is_whitespace)` path,
`space1`, version, CRLF. -/
def RequestLine.parser (input : List Nat) : Option (List Nat × RequestLine) := do
  let (r1, method) ← Method.parser input
  let (r2, _) ← takeWhile1P is_space r1
  let (r3, path) := takeTillP is_whitespace r2
  let (r4, _) ← takeWhile1P is_space r3
  let (r5, version) ← Version.parser r4
  let (r6, _) ← tagP (strBytes "\r\n") r5
  pure (r6, ⟨method, path, version⟩)

/-- A header pair: key bytes and value bytes. -/
abbrev HPair := List Nat × List Nat

/-- Lexicographic byte-string order, as Rust's `Ord` on `String`. -/
def bytesLt : List Nat → List Nat → Bool
  | _, [] => false
  | [], _ :: _ => true
  | a :: as, b :: bs => if a < b then true else if a = b then bytesLt as bs else false

/-- Reflexive closure of `bytesLt`. -/
def bytesLe (x y : List Nat) : Bool := if x = y then true else bytesLt x y

/-- Model of `HashMap<String, String>`: a key-sorted association list with
unique keys (the canonical representative of the unordered map).
`insertSorted` is `HashMap::insert`: overwrite on an equal key. -/
def insertSorted (k v : List Nat) : List HPair → List HPair
  | [] => [(k, v)]
  | p :: rest =>
    if k = p.1 then (k, v) :: rest
    else if bytesLt k p.1 then (k, v) :: p :: rest
    else p :: insertSorted k v rest

/-- `HashMap::get`. -/
def lookupH (k : List Nat) : List HPair → Option (List Nat)
  | [] => none
  | p :: rest => if p.1 = k then some p.2 else lookupH k rest

/-- The `.map(lower-case key).collect::<HashMap<_, _>>()` step of
`Request::parser`: left fold of inserts, so a later duplicate overwrites an
earlier one. -/
def collectHeaders (l : List HPair) : List HPair :=
  l.foldl (fun m p => insertSorted (lowerBytes p.1) p.2 m) []

/-- One header line of `Request::parser`:
`terminated(take_while1(is_header_key), tag(": "))` then
`terminated(take_until1("\r\n"), tag("\r\n"))`. -/
def headerLineP (input : List Nat) : Option (List Nat × HPair) := do
  let (r1, k) ← takeWhile1P is_header_key input
  let (r2, _) ← tagP (strBytes ": ") r1
  let (r3, v) ← takeUntil1P (strBytes "\r\n") r2
  let (r4, _) ← tagP (strBytes "\r\n") r3
  pure (r4, (k, v))

/-- Fuelled loop of nom `many0` over header lines.  nom aborts `many0` if an
iteration consumes nothing; a successful header line always consumes at least
one byte, so with fuel `input.length + 1` the fuel never reaches zero. -/
def many0HeadersAux : Nat → List Nat → Option (List Nat × List HPair)
  | 0, _ => none
  | fuel + 1, input =>
    match headerLineP input with
    | none => some (input, [])
    | some (r, kv) => (many0HeadersAux fuel r).map fun s => (s.1, kv :: s.2)

/-- nom `many0` over header lines. -/
def many0Headers (input : List Nat) : Option (List Nat × List HPair) :=
  many0HeadersAux (input.length + 1) input

/-- `Request` from `http.rs`; the header map is in canonical (key-sorted)
form. -/
structure Request where
  req_line : RequestLine
  headers : List HPair
  body : Option (List Nat)
deriving DecidableEq

/-- `Request::parser`: request line, `many0` header lines, then
`opt(preceded(tag("\r\n"), rest))` as the body.  nom `rest` consumes the whole
remaining input and succeeds even when it is empty. -/
def Request.parser (input : List Nat) : Option (List Nat × Request) := do
  let (r1, req_line) ← RequestLine.parser input
  let (r2, rawHeaders) ← many0Headers r1
  match tagP (strBytes "\r\n") r2 with
  | some (r3, _) => pure (([], ⟨req_line, collectHeaders rawHeaders, some r3⟩))
  | none => pure ((r2, ⟨req_line, collectHeaders rawHeaders, none⟩))

/-- `Status` from `http.rs`. -/
inductive Status where
  | Ok
  | Created
  | BadRequest
  | NotFound
  | Internal
deriving DecidableEq

/-- `Status::code`. -/
def Status.code : Status → Nat
  | .Ok => 200
  | .Created => 201
  | .BadRequest => 400
  | .NotFound => 404
  | .Internal => 500

/-- `Status::text` (byte sequence of the `&'static str`). -/
def Status.text : Status → List Nat
  | .Ok => strBytes "OK"
  | .Created => strBytes "Created"
  | .BadRequest => strBytes "Bad Request"
  | .NotFound => strBytes "NOT FOUND"
  | .Internal => strBytes "Internal Server Error"

/-- `StatusLine` from `http.rs`. -/
structure StatusLine where
  version : Version
  status : Status
deriving DecidableEq

/-- `Display for Version`: `HTTP/{major}.{minor}`. -/
def Version.render (v : Version) : List Nat :=
  strBytes "HTTP/" ++ natDec v.major ++ strBytes "." ++ natDec v.minor

/-- `Display for StatusLine`: `{version} {code} {text}\r\n`. -/
def StatusLine.render (sl : StatusLine) : List Nat :=
  sl.version.render ++ [32] ++ natDec sl.status.code ++ [32] ++ sl.status.text
    ++ strBytes "\r\n"

/-- `Response` from `http.rs`; the header map is in canonical (key-sorted)
form. -/
structure Response where
  status_line : StatusLine
  headers : List HPair
  body : Option (List Nat)
deriving DecidableEq

/-- `Response::new`. -/
def Response.new (status : Status) : Response :=
  ⟨⟨⟨1, 1⟩, status⟩, [], none⟩

/-- `Response::with_header`: inserts the lower-cased key and lower-cased
value, overwriting a previous entry with the same key. -/
def Response.with_header (r : Response) (k v : List Nat) : Response :=
  { r with headers := insertSorted (lowerBytes k) (lowerBytes v) r.headers }

/-- `Response::with_body`: sets the body, then `with_header("Content-Type",
content_type)` and `with_header("Content-Length", body.len())`. -/
def Response.with_body (r : Response) (body ct : List Nat) : Response :=
  (({ r with body := some body }).with_header (strBytes "Content-Type") ct).with_header
    (strBytes "Content-Length") (natDec body.length)

/-- Rust `Ord` on the pairs `(&String, &String)` handed to `Vec::sort`:
key first, then value. -/
def pairLeB (a b : HPair) : Bool :=
  if a.1 = b.1 then bytesLe a.2 b.2 else bytesLt a.1 b.1

/-- `pairLeB` as a relation. -/
def pairLe (a b : HPair) : Prop := pairLeB a b = true

instance : DecidableRel pairLe :=
  fun a b => inferInstanceAs (Decidable (pairLeB a b = true))

/-- `Vec::sort` on the collected `(key, value)` pairs of `serialize`. -/
def sortPairs (l : List HPair) : List HPair := List.insertionSort pairLe l

/-- The header block: each pair as `{key}: {value}\r\n`, in list order. -/
def headerLinesRender (l : List HPair) : List Nat :=
  l.foldr (fun p acc => p.1 ++ strBytes ": " ++ p.2 ++ strBytes "\r\n" ++ acc) []

/-- `Response::serialize` with the header iteration order made explicit: a
`HashMap` iterates in unspecified order, and the method sorts that sequence
before emitting.  Status line, sorted header lines, a blank line, then the
body bytes if present. -/
def serializeWithOrder (r : Response) (iter : List HPair) : List Nat :=
  r.status_line.render ++ headerLinesRender (sortPairs iter) ++ strBytes "\r\n"
    ++ r.body.getD []

/-- `Serialize::to_bytes` for `Response` (the buffer written by `serialize`). -/
def Response.serialize (r : Response) : List Nat := serializeWithOrder r r.headers

/-- Modelled from the spec: the wire request grammar renderer used by the
round-trip claims (the repository has no request renderer).  Request line,
header lines, then — when a body is present — the blank separator line and
the raw body bytes. -/
def renderRequest (r : Request) : List Nat :=
  Method.render r.req_line.method ++ [32] ++ r.req_line.path ++ [32] ++
    Version.render r.req_line.version ++ strBytes "\r\n" ++
    headerLinesRender r.headers ++
    (match r.body with
     | none => []
     | some b => strBytes "\r\n" ++ b)

/-- Modelled from the spec: the renderer exactly as claim C3 words it —
request line, header lines, an unconditional blank line, optional raw body. -/
def renderRequestSpec (r : Request) : List Nat :=
  Method.render r.req_line.method ++ [32] ++ r.req_line.path ++ [32] ++
    Version.render r.req_line.version ++ strBytes "\r\n" ++
    headerLinesRender r.headers ++ strBytes "\r\n" ++ r.body.getD []

/-- Modelled from the spec: the fixed `code reason` byte strings of §6. -/
def specStatusBytes : Status → List Nat
  | .Ok => strBytes "200 OK"
  | .Created => strBytes "201 Created"
  | .BadRequest => strBytes "400 Bad Request"
  | .NotFound => strBytes "404 NOT FOUND"
  | .Internal => strBytes "500 Internal Server Error"

/-- Modelled from the spec: "last write wins on duplicate names" — the value
of the last pair whose key equals `k`. -/
def lastWins (k : List Nat) : List HPair → Option (List Nat)
  | [] => none
  | p :: rest =>
    match lastWins k rest with
    | some v => some v
    | none => if p.1 = k then some p.2 else none

/-- Number of start positions at which `t` occurs in `l`. -/
def countSub (t : List Nat) : List Nat → Nat
  | [] => if t = [] then 1 else 0
  | c :: rest => (if t.isPrefixOf (c :: rest) then 1 else 0) + countSub t rest

/-! ## Helper lemmas: byte strings and primitive combinators -/

theorem strBytes_crlf : strBytes "\r\n" = [13, 10] := rfl

theorem strBytes_colon_space : strBytes ": " = [58, 32] := rfl

theorem strBytes_http_slash : strBytes "HTTP/" = [72, 84, 84, 80, 47] := rfl

theorem strBytes_dot : strBytes "." = [46] := rfl

theorem takeWhile_append_all {p : Nat → Bool} {l : List Nat} (s : List Nat)
    (h : ∀ c ∈ l, p c = true) : (l ++ s).takeWhile p = l ++ s.takeWhile p := by
  induction l with
  | nil => simp
  | cons c cs ih =>
    have hc : p c = true := h c (by simp)
    have hcs : ∀ x ∈ cs, p x = true := fun x hx => h x (by simp [hx])
    simp [List.takeWhile_cons, hc, ih hcs]

theorem dropWhile_append_all {p : Nat → Bool} {l : List Nat} (s : List Nat)
    (h : ∀ c ∈ l, p c = true) : (l ++ s).dropWhile p = s.dropWhile p := by
  induction l with
  | nil => simp
  | cons c cs ih =>
    have hc : p c = true := h c (by simp)
    have hcs : ∀ x ∈ cs, p x = true := fun x hx => h x (by simp [hx])
    simp [List.dropWhile_cons, hc, ih hcs]

theorem head_dropWhile_not {p : Nat → Bool} :
    ∀ (l : List Nat) (c : Nat), (l.dropWhile p).head? = some c → p c = false := by
  intro l
  induction l with
  | nil => intro c h; simp at h
  | cons a as ih =>
    intro c h
    by_cases hp : p a
    · rw [List.dropWhile_cons, if_pos hp] at h
      exact ih c h
    · rw [List.dropWhile_cons, if_neg hp] at h
      simp at h
      subst h
      simpa using hp

theorem tagP_self_append (t s : List Nat) : tagP t (t ++ s) = some (s, t) := by
  have hp : t.isPrefixOf (t ++ s) = true := by
    induction t with
    | nil => cases s <;> rfl
    | cons c cs ih => simp [List.isPrefixOf, ih]
  simp [tagP, hp, List.drop_left]

theorem takeWhile1P_exact {p : Nat → Bool} {l : List Nat} (s : List Nat)
    (hne : l ≠ []) (hall : ∀ c ∈ l, p c = true)
    (hs : ∀ c, s.head? = some c → p c = false) :
    takeWhile1P p (l ++ s) = some (s, l) := by
  have hst : s.takeWhile p = [] := by
    cases s with
    | nil => rfl
    | cons c cs => rw [List.takeWhile_cons, if_neg (by simp [hs c rfl])]
  have hsd : s.dropWhile p = s := by
    cases s with
    | nil => rfl
    | cons c cs => rw [List.dropWhile_cons, if_neg (by simp [hs c rfl])]
  have ht : (l ++ s).takeWhile p = l := by
    rw [takeWhile_append_all s hall, hst, List.append_nil]
  have hd : (l ++ s).dropWhile p = s := by
    rw [dropWhile_append_all s hall, hsd]
  simp [takeWhile1P, ht, hd, hne]

theorem takeWhile1P_eq_some {p : Nat → Bool} {input r taken : List Nat}
    (h : takeWhile1P p input = some (r, taken)) :
    taken = input.takeWhile p ∧ r = input.dropWhile p ∧ input.takeWhile p ≠ [] := by
  unfold takeWhile1P at h
  by_cases hc : input.takeWhile p = []
  · simp [hc] at h
  · simp [hc] at h
    exact ⟨h.2.symm, h.1.symm, hc⟩

theorem takeTillP_exact {p : Nat → Bool} {l : List Nat} (s : List Nat)
    (hall : ∀ c ∈ l, p c = false)
    (hs : ∀ c, s.head? = some c → p c = true) :
    takeTillP p (l ++ s) = (s, l) := by
  have hall' : ∀ c ∈ l, (!p c) = true := fun c hc => by simp [hall c hc]
  have hst : s.takeWhile (fun c => !p c) = [] := by
    cases s with
    | nil => rfl
    | cons c cs => rw [List.takeWhile_cons, if_neg (by simp [hs c rfl])]
  have hsd : s.dropWhile (fun c => !p c) = s := by
    cases s with
    | nil => rfl
    | cons c cs => rw [List.dropWhile_cons, if_neg (by simp [hs c rfl])]
  unfold takeTillP
  rw [takeWhile_append_all s hall', dropWhile_append_all s hall', hst, hsd, List.append_nil]

/-! ## Helper lemmas: decimal digits -/

theorem digitsToNat_append_digit (l : List Nat) (d : Nat) :
    digitsToNat (l ++ [d]) = digitsToNat l * 10 + (d - 48) := by
  simp [digitsToNat, List.foldl_append]

theorem natDecAux_spec :
    ∀ fuel n, n < fuel →
      natDecAux fuel n ≠ [] ∧ (∀ c ∈ natDecAux fuel n, is_digit c = true) ∧
        digitsToNat (natDecAux fuel n) = n := by
  intro fuel
  induction fuel with
  | zero => intro n h; exact absurd h (Nat.not_lt_zero n)
  | succ f ih =>
    intro n hn
    by_cases h10 : n < 10
    · refine ⟨by simp [natDecAux, h10], ?_, ?_⟩
      · intro c hc
        simp [natDecAux, h10] at hc
        subst hc
        simp [is_digit]
        omega
      · simp [natDecAux, h10, digitsToNat]
    · have hdiv : n / 10 < f := by
        have h1 : n / 10 < n := Nat.div_lt_self (by omega) (by omega)
        omega
      obtain ⟨ihne, ihdig, ihval⟩ := ih (n / 10) hdiv
      rw [show natDecAux (f + 1) n = natDecAux f (n / 10) ++ [n % 10 + 48] by
        simp [natDecAux, h10]]
      refine ⟨by simp, ?_, ?_⟩
      · intro c hc
        rcases List.mem_append.mp hc with hc | hc
        · exact ihdig c hc
        · simp at hc
          subst hc
          have : n % 10 < 10 := Nat.mod_lt n (by omega)
          simp [is_digit]
          omega
      · rw [digitsToNat_append_digit, ihval]
        have := Nat.div_add_mod n 10
        omega

theorem natDec_spec (n : Nat) :
    natDec n ≠ [] ∧ (∀ c ∈ natDec n, is_digit c = true) ∧ digitsToNat (natDec n) = n :=
  natDecAux_spec (n + 1) n (Nat.lt_succ_self n)

/-! ## Helper lemmas: parsing rendered tokens -/

theorem nil_isPrefixOf (l : List Nat) : ([] : List Nat).isPrefixOf l = true := by
  cases l <;> rfl

theorem strBytes_GET : strBytes "GET" = [71, 69, 84] := rfl

theorem strBytes_HEAD : strBytes "HEAD" = [72, 69, 65, 68] := rfl

theorem strBytes_POST : strBytes "POST" = [80, 79, 83, 84] := rfl

theorem strBytes_PUT : strBytes "PUT" = [80, 85, 84] := rfl

theorem strBytes_DELETE : strBytes "DELETE" = [68, 69, 76, 69, 84, 69] := rfl

theorem strBytes_CONNECT : strBytes "CONNECT" = [67, 79, 78, 78, 69, 67, 84] := rfl

theorem strBytes_OPTIONS : strBytes "OPTIONS" = [79, 80, 84, 73, 79, 78, 83] := rfl

theorem strBytes_TRACE : strBytes "TRACE" = [84, 82, 65, 67, 69] := rfl

theorem strBytes_PATCH : strBytes "PATCH" = [80, 65, 84, 67, 72] := rfl

theorem method_parser_render (m : Method) (s : List Nat) :
    Method.parser (Method.render m ++ s) = some (s, m) := by
  cases m <;>
    simp [Method.parser, Method.render, valueTag, tagP, List.isPrefixOf, nil_isPrefixOf,
      strBytes_GET, strBytes_HEAD, strBytes_POST, strBytes_PUT, strBytes_DELETE,
      strBytes_CONNECT, strBytes_OPTIONS, strBytes_TRACE, strBytes_PATCH]

theorem version_parser_render (ver : Version) (s : List Nat)
    (hmaj : ver.major ≤ 255) (hmin : ver.minor ≤ 255)
    (hs : ∀ c, s.head? = some c → is_digit c = false) :
    Version.parser (Version.render ver ++ s) = some (s, ver) := by
  obtain ⟨hne₁, hdig₁, hval₁⟩ := natDec_spec ver.major
  obtain ⟨hne₂, hdig₂, hval₂⟩ := natDec_spec ver.minor
  have h1 : tagP (strBytes "HTTP/")
      (strBytes "HTTP/" ++ (natDec ver.major ++ (strBytes "." ++ (natDec ver.minor ++ s))))
      = some (natDec ver.major ++ (strBytes "." ++ (natDec ver.minor ++ s)), strBytes "HTTP/") :=
    tagP_self_append _ _
  have h2 : takeWhile1P is_digit (natDec ver.major ++ (strBytes "." ++ (natDec ver.minor ++ s)))
      = some (strBytes "." ++ (natDec ver.minor ++ s), natDec ver.major) := by
    refine takeWhile1P_exact _ hne₁ hdig₁ ?_
    intro c hc
    rw [strBytes_dot] at hc
    simp at hc
    subst hc
    decide
  have h3 : parseU8 (natDec ver.major) = some ver.major := by
    simp [parseU8, hval₁, hmaj]
  have h4 : tagP (strBytes ".") (strBytes "." ++ (natDec ver.minor ++ s))
      = some (natDec ver.minor ++ s, strBytes ".") := tagP_self_append _ _
  have h5 : takeWhile1P is_digit (natDec ver.minor ++ s) = some (s, natDec ver.minor) :=
    takeWhile1P_exact _ hne₂ hdig₂ hs
  have h6 : parseU8 (natDec ver.minor) = some ver.minor := by
    simp [parseU8, hval₂, hmin]
  simp [Version.parser, Version.render, List.append_assoc, h1, h2, h3, h4, h5, h6]

theorem is_space_of_not_ws {c : Nat} (h : is_whitespace c = false) : is_space c = false := by
  have h32 : c ≠ 32 := by intro hc; subst hc; simp [is_whitespace] at h
  have h9 : c ≠ 9 := by intro hc; subst hc; simp [is_whitespace] at h
  simp [is_space, h32, h9]

theorem request_line_parser_render (m : Method) (p : List Nat) (ver : Version) (s : List Nat)
    (hp : p ≠ []) (hpw : ∀ c ∈ p, is_whitespace c = false)
    (hmaj : ver.major ≤ 255) (hmin : ver.minor ≤ 255) :
    RequestLine.parser
        (Method.render m ++ [32] ++ p ++ [32] ++ Version.render ver ++ strBytes "\r\n" ++ s)
      = some (s, ⟨m, p, ver⟩) := by
  have h1 : Method.parser
      (Method.render m ++ 32 :: (p ++ 32 :: (Version.render ver ++ (strBytes "\r\n" ++ s))))
      = some (32 :: (p ++ 32 :: (Version.render ver ++ (strBytes "\r\n" ++ s))), m) :=
    method_parser_render m _
  have h2 : takeWhile1P is_space
      (32 :: (p ++ 32 :: (Version.render ver ++ (strBytes "\r\n" ++ s))))
      = some (p ++ 32 :: (Version.render ver ++ (strBytes "\r\n" ++ s)), [32]) := by
    refine takeWhile1P_exact (l := [32]) _ (by simp)
      (by intro c hc; simp at hc; subst hc; decide) ?_
    intro c hc
    cases p with
    | nil => exact absurd rfl hp
    | cons a as =>
      simp at hc
      subst hc
      exact is_space_of_not_ws (hpw a (by simp))
  have h3 : takeTillP is_whitespace
      (p ++ 32 :: (Version.render ver ++ (strBytes "\r\n" ++ s)))
      = (32 :: (Version.render ver ++ (strBytes "\r\n" ++ s)), p) := by
    refine takeTillP_exact (l := p) _ hpw ?_
    intro c hc
    simp at hc
    subst hc
    decide
  have hws : ∀ c : Nat, (Version.render ver ++ (strBytes "\r\n" ++ s)).head? = some c →
      is_space c = false := by
    intro c hc
    rw [show Version.render ver
        = 72 :: 84 :: 84 :: 80 :: 47 :: (natDec ver.major ++ (strBytes "." ++ natDec ver.minor)) by
      simp [Version.render, strBytes_http_slash, List.append_assoc]] at hc
    simp at hc
    subst hc
    decide
  have h4 : takeWhile1P is_space
      (32 :: (Version.render ver ++ (strBytes "\r\n" ++ s)))
      = some (Version.render ver ++ (strBytes "\r\n" ++ s), [32]) :=
    takeWhile1P_exact (l := [32]) _ (by simp)
      (by intro c hc; simp at hc; subst hc; decide) hws
  have h5 : Version.parser (Version.render ver ++ (strBytes "\r\n" ++ s))
      = some (strBytes "\r\n" ++ s, ver) := by
    refine version_parser_render ver _ hmaj hmin ?_
    intro c hc
    rw [strBytes_crlf] at hc
    simp at hc
    subst hc
    decide
  have h6 : tagP (strBytes "\r\n") (strBytes "\r\n" ++ s) = some (s, strBytes "\r\n") :=
    tagP_self_append _ _
  simp [RequestLine.parser, List.append_assoc, h1, h2, h3, h4, h5, h6]

/-! ## Helper lemmas: header lines and the many0 loop -/

theorem findSub_crlf_none_cons {c : Nat} {cs : List Nat}
    (h : findSub [13, 10] (c :: cs) = none) :
    ([13, 10] : List Nat).isPrefixOf (c :: cs) = false ∧ findSub [13, 10] cs = none := by
  unfold findSub at h
  by_cases hp : ([13, 10] : List Nat).isPrefixOf (c :: cs) = true
  · simp [hp] at h
  · have hp' : ([13, 10] : List Nat).isPrefixOf (c :: cs) = false := by
      cases hb : ([13, 10] : List Nat).isPrefixOf (c :: cs) with
      | false => rfl
      | true => exact absurd hb hp
    rw [hp'] at h
    simp at h
    exact ⟨hp', h⟩

theorem isPrefixOf_crlf_cons_cons (c d : Nat) (l : List Nat) :
    ([13, 10] : List Nat).isPrefixOf (c :: d :: l) = (13 == c && 10 == d) := by
  show (13 == c && (10 == d && ([] : List Nat).isPrefixOf l)) = (13 == c && 10 == d)
  rw [nil_isPrefixOf, Bool.and_true]

theorem findSub_crlf_append {v : List Nat} (rest : List Nat)
    (hv : findSub [13, 10] v = none) :
    findSub [13, 10] (v ++ 13 :: 10 :: rest) = some v.length := by
  induction v with
  | nil =>
    show findSub [13, 10] (13 :: 10 :: rest) = some 0
    unfold findSub
    rw [isPrefixOf_crlf_cons_cons]
    simp
  | cons c cs ih =>
    obtain ⟨hp, hcs⟩ := findSub_crlf_none_cons hv
    have hp2 : ([13, 10] : List Nat).isPrefixOf (c :: (cs ++ 13 :: 10 :: rest)) = false := by
      cases cs with
      | nil =>
        rw [show ([] : List Nat) ++ 13 :: 10 :: rest = 13 :: 10 :: rest from rfl,
          isPrefixOf_crlf_cons_cons]
        simp
      | cons d ds =>
        rw [show (d :: ds) ++ 13 :: 10 :: rest = d :: (ds ++ 13 :: 10 :: rest) from rfl,
          isPrefixOf_crlf_cons_cons]
        rw [isPrefixOf_crlf_cons_cons] at hp
        exact hp
    rw [show (c :: cs) ++ 13 :: 10 :: rest = c :: (cs ++ 13 :: 10 :: rest) from rfl]
    unfold findSub
    rw [hp2]
    simp [ih hcs]

theorem headerLineP_render {k v : List Nat} (rest : List Nat)
    (hk : k ≠ []) (hkall : ∀ c ∈ k, is_header_key c = true)
    (hv : v ≠ []) (hvno : findSub [13, 10] v = none) :
    headerLineP (k ++ strBytes ": " ++ v ++ strBytes "\r\n" ++ rest) = some (rest, (k, v)) := by
  have h1 : takeWhile1P is_header_key (k ++ (strBytes ": " ++ (v ++ (strBytes "\r\n" ++ rest))))
      = some (strBytes ": " ++ (v ++ (strBytes "\r\n" ++ rest)), k) := by
    refine takeWhile1P_exact _ hk hkall ?_
    intro c hc
    rw [strBytes_colon_space] at hc
    simp at hc
    subst hc
    decide
  have h2 : tagP (strBytes ": ") (strBytes ": " ++ (v ++ (strBytes "\r\n" ++ rest)))
      = some (v ++ (strBytes "\r\n" ++ rest), strBytes ": ") := tagP_self_append _ _
  have hfind : findSub [13, 10] (v ++ 13 :: 10 :: rest) = some v.length :=
    findSub_crlf_append rest hvno
  have h3 : takeUntil1P (strBytes "\r\n") (v ++ (strBytes "\r\n" ++ rest))
      = some (strBytes "\r\n" ++ rest, v) := by
    unfold takeUntil1P
    rw [strBytes_crlf]
    simp only [List.cons_append, List.nil_append]
    rw [hfind]
    cases hlen : v.length with
    | zero => exact absurd (List.length_eq_zero.mp hlen) hv
    | succ i =>
      show some ((v ++ 13 :: 10 :: rest).drop (i + 1), (v ++ 13 :: 10 :: rest).take (i + 1))
          = some (13 :: 10 :: rest, v)
      rw [← hlen, List.drop_left, List.take_left]
  have h4 : tagP (strBytes "\r\n") (strBytes "\r\n" ++ rest)
      = some (rest, strBytes "\r\n") := tagP_self_append _ _
  simp [headerLineP, List.append_assoc, h1, h2, h3, h4]

theorem headerLineP_stop (input : List Nat)
    (h : ∀ c, input.head? = some c → is_header_key c = false) :
    headerLineP input = none := by
  cases input with
  | nil => rfl
  | cons c cs =>
    have hc : is_header_key c = false := h c rfl
    simp [headerLineP, takeWhile1P, List.takeWhile_cons, hc]

theorem headerLinesRender_cons (kv : HPair) (rest : List HPair) :
    headerLinesRender (kv :: rest) =
      kv.1 ++ strBytes ": " ++ kv.2 ++ strBytes "\r\n" ++ headerLinesRender rest := by
  simp [headerLinesRender, List.append_assoc]

/-- Validity of one rendered header pair: nonempty key of header-key bytes,
nonempty value with no CRLF inside. -/
def ValidHeader (kv : HPair) : Prop :=
  kv.1 ≠ [] ∧ (∀ c ∈ kv.1, is_header_key c = true) ∧ kv.2 ≠ [] ∧
    findSub [13, 10] kv.2 = none

instance : DecidablePred ValidHeader := fun kv =>
  inferInstanceAs (Decidable (kv.1 ≠ [] ∧ (∀ c ∈ kv.1, is_header_key c = true) ∧ kv.2 ≠ [] ∧
    findSub [13, 10] kv.2 = none))

theorem many0HeadersAux_render :
    ∀ (hl : List HPair) (fuel : Nat) (tail : List Nat),
      (headerLinesRender hl ++ tail).length < fuel →
      (∀ kv ∈ hl, ValidHeader kv) →
      (∀ c, tail.head? = some c → is_header_key c = false) →
      many0HeadersAux fuel (headerLinesRender hl ++ tail) = some (tail, hl) := by
  intro hl
  induction hl with
  | nil =>
    intro fuel tail hfuel _ htail
    cases fuel with
    | zero => omega
    | succ f =>
      have : headerLinesRender [] ++ tail = tail := by simp [headerLinesRender]
      rw [this] at hfuel ⊢
      simp [many0HeadersAux, headerLineP_stop tail htail]
  | cons kv rest ih =>
    intro fuel tail hfuel hall htail
    cases fuel with
    | zero => omega
    | succ f =>
      obtain ⟨hk, hkall, hv, hvno⟩ := hall kv (by simp)
      have hline : headerLineP (headerLinesRender (kv :: rest) ++ tail)
          = some (headerLinesRender rest ++ tail, (kv.1, kv.2)) := by
        rw [headerLinesRender_cons]
        rw [show kv.1 ++ strBytes ": " ++ kv.2 ++ strBytes "\r\n" ++ headerLinesRender rest ++ tail
            = kv.1 ++ strBytes ": " ++ kv.2 ++ strBytes "\r\n" ++ (headerLinesRender rest ++ tail) by
          simp [List.append_assoc]]
        exact headerLineP_render _ hk hkall hv hvno
      have hlen : (headerLinesRender rest ++ tail).length < f := by
        have : (headerLinesRender (kv :: rest) ++ tail).length
            = kv.1.length + 2 + kv.2.length + 2 + (headerLinesRender rest ++ tail).length := by
          rw [headerLinesRender_cons]
          simp [strBytes_colon_space, strBytes_crlf]
          omega
        have hk1 : 1 ≤ kv.1.length := by
          cases h : kv.1 with
          | nil => exact absurd h hk
          | cons a as => simp
        omega
      have hrec : many0HeadersAux f (headerLinesRender rest ++ tail) = some (tail, rest) :=
        ih f tail hlen (fun q hq => hall q (by simp [hq])) htail
      simp [many0HeadersAux, hline, hrec, Prod.mk.eta]

/-! ## Helper lemmas: full-request parsing of rendered input -/

theorem Request.parser_append_headers (m : Method) (p : List Nat) (ver : Version)
    (hl : List HPair) (tail : List Nat)
    (hp : p ≠ []) (hpw : ∀ c ∈ p, is_whitespace c = false)
    (hmaj : ver.major ≤ 255) (hmin : ver.minor ≤ 255)
    (hall : ∀ kv ∈ hl, ValidHeader kv)
    (htail : ∀ c, tail.head? = some c → is_header_key c = false) :
    Request.parser (Method.render m ++ [32] ++ p ++ [32] ++ Version.render ver
        ++ strBytes "\r\n" ++ (headerLinesRender hl ++ tail))
      = (match tagP (strBytes "\r\n") tail with
         | some (r3, _) => some ([], ⟨⟨m, p, ver⟩, collectHeaders hl, some r3⟩)
         | none => some (tail, ⟨⟨m, p, ver⟩, collectHeaders hl, none⟩)) := by
  have h1 : RequestLine.parser (Method.render m ++ [32] ++ p ++ [32] ++ Version.render ver
      ++ strBytes "\r\n" ++ (headerLinesRender hl ++ tail))
      = some (headerLinesRender hl ++ tail, ⟨m, p, ver⟩) :=
    request_line_parser_render m p ver _ hp hpw hmaj hmin
  have h2 : many0Headers (headerLinesRender hl ++ tail) = some (tail, hl) := by
    unfold many0Headers
    exact many0HeadersAux_render hl _ tail (Nat.lt_succ_self _) hall htail
  simp only [List.append_assoc, List.singleton_append] at h1 ⊢
  simp only [Request.parser, h1, h2, Option.bind_eq_bind, Option.some_bind]
  cases htag : tagP (strBytes "\r\n") tail with
  | none => rfl
  | some pr => rfl

/-! ## Helper lemmas: byte-string order -/

theorem bytesLt_irrefl : ∀ x : List Nat, bytesLt x x = false
  | [] => rfl
  | a :: as => by simp [bytesLt, bytesLt_irrefl as]

theorem bytesLt_asymm : ∀ x y : List Nat, bytesLt x y = true → bytesLt y x = false := by
  intro x
  induction x with
  | nil =>
    intro y h
    cases y with
    | nil => simp [bytesLt] at h
    | cons b bs => rfl
  | cons a as ih =>
    intro y h
    cases y with
    | nil => simp [bytesLt] at h
    | cons b bs =>
      simp only [bytesLt] at h ⊢
      by_cases hab : a < b
      · have hba : ¬b < a := by omega
        have hbea : ¬b = a := by omega
        simp [hba, hbea]
      · rw [if_neg hab] at h
        by_cases heq : a = b
        · rw [if_pos heq] at h
          subst heq
          have hlt : ¬a < a := by omega
          simp [hlt, ih bs h]
        · rw [if_neg heq] at h
          simp at h

theorem bytesLt_trans :
    ∀ x y z : List Nat, bytesLt x y = true → bytesLt y z = true → bytesLt x z = true := by
  intro x
  induction x with
  | nil =>
    intro y z hxy hyz
    cases y with
    | nil => simp [bytesLt] at hxy
    | cons b bs =>
      cases z with
      | nil => simp [bytesLt] at hyz
      | cons c cs => rfl
  | cons a as ih =>
    intro y z hxy hyz
    cases y with
    | nil => simp [bytesLt] at hxy
    | cons b bs =>
      cases z with
      | nil => simp [bytesLt] at hyz
      | cons c cs =>
        simp only [bytesLt] at hxy hyz ⊢
        by_cases hab : a < b
        · by_cases hbc : b < c
          · simp [show a < c by omega]
          · rw [if_neg hbc] at hyz
            by_cases hbec : b = c
            · simp [show a < c by omega]
            · rw [if_neg hbec] at hyz
              simp at hyz
        · rw [if_neg hab] at hxy
          by_cases haeb : a = b
          · rw [if_pos haeb] at hxy
            subst haeb
            by_cases hbc : a < c
            · simp [hbc]
            · rw [if_neg hbc] at hyz ⊢
              by_cases haec : a = c
              · rw [if_pos haec] at hyz ⊢
                exact ih bs cs hxy hyz
              · rw [if_neg haec] at hyz
                simp at hyz
          · rw [if_neg haeb] at hxy
            simp at hxy

theorem bytesLt_connex : ∀ x y : List Nat, x ≠ y → bytesLt x y = true ∨ bytesLt y x = true := by
  intro x
  induction x with
  | nil =>
    intro y h
    cases y with
    | nil => exact absurd rfl h
    | cons b bs => exact Or.inl rfl
  | cons a as ih =>
    intro y h
    cases y with
    | nil => exact Or.inr rfl
    | cons b bs =>
      simp only [bytesLt]
      by_cases hab : a < b
      · exact Or.inl (by simp [hab])
      · by_cases hba : b < a
        · refine Or.inr ?_
          rw [if_pos hba]
        · have haeb : a = b := by omega
          subst haeb
          have hne : as ≠ bs := by
            intro hh
            exact h (by rw [hh])
          rcases ih bs hne with hl | hr
          · exact Or.inl (by simp [show ¬a < a by omega, hl])
          · exact Or.inr (by simp [show ¬a < a by omega, hr])

theorem bytesLe_refl (x : List Nat) : bytesLe x x = true := by
  simp [bytesLe]

theorem bytesLe_total (x y : List Nat) : bytesLe x y = true ∨ bytesLe y x = true := by
  by_cases h : x = y
  · subst h
    exact Or.inl (bytesLe_refl x)
  · unfold bytesLe
    rw [if_neg h, if_neg (Ne.symm h)]
    exact bytesLt_connex x y h

theorem bytesLe_trans (x y z : List Nat)
    (hxy : bytesLe x y = true) (hyz : bytesLe y z = true) : bytesLe x z = true := by
  unfold bytesLe at hxy hyz ⊢
  by_cases h1 : x = y
  · subst h1
    exact hyz
  · rw [if_neg h1] at hxy
    by_cases h2 : y = z
    · subst h2
      rw [if_neg h1]
      exact hxy
    · rw [if_neg h2] at hyz
      by_cases h3 : x = z
      · simp [h3]
      · rw [if_neg h3]
        exact bytesLt_trans x y z hxy hyz

theorem bytesLe_antisymm (x y : List Nat)
    (hxy : bytesLe x y = true) (hyx : bytesLe y x = true) : x = y := by
  by_cases h : x = y
  · exact h
  · unfold bytesLe at hxy hyx
    rw [if_neg h] at hxy
    rw [if_neg (Ne.symm h)] at hyx
    have := bytesLt_asymm x y hxy
    rw [hyx] at this
    exact absurd this (by simp)

instance : IsTotal HPair pairLe :=
  ⟨by
    intro a b
    unfold pairLe pairLeB
    by_cases h : a.1 = b.1
    · rw [if_pos h, if_pos h.symm]
      exact bytesLe_total a.2 b.2
    · rw [if_neg h, if_neg (Ne.symm h)]
      exact bytesLt_connex a.1 b.1 h⟩

instance : IsTrans HPair pairLe :=
  ⟨by
    intro a b c hab hbc
    unfold pairLe pairLeB at hab hbc ⊢
    by_cases h1 : a.1 = b.1
    · rw [if_pos h1] at hab
      by_cases h2 : b.1 = c.1
      · rw [if_pos h2] at hbc
        rw [if_pos (h1.trans h2)]
        exact bytesLe_trans _ _ _ hab hbc
      · rw [if_neg h2] at hbc
        have hac : a.1 ≠ c.1 := by rw [h1]; exact h2
        rw [if_neg hac, h1]
        exact hbc
    · rw [if_neg h1] at hab
      by_cases h2 : b.1 = c.1
      · rw [if_pos h2] at hbc
        have hac : a.1 ≠ c.1 := by rw [← h2]; exact h1
        rw [if_neg hac, ← h2]
        exact hab
      · rw [if_neg h2] at hbc
        have hlt := bytesLt_trans _ _ _ hab hbc
        have hac : a.1 ≠ c.1 := by
          intro he
          have hasym := bytesLt_asymm _ _ hbc
          rw [← he] at hasym
          rw [hab] at hasym
          exact absurd hasym (by simp)
        rw [if_neg hac]
        exact hlt⟩

instance : IsAntisymm HPair pairLe :=
  ⟨by
    intro a b hab hba
    unfold pairLe pairLeB at hab hba
    by_cases h : a.1 = b.1
    · rw [if_pos h] at hab
      rw [if_pos h.symm] at hba
      have h2 := bytesLe_antisymm _ _ hab hba
      exact Prod.ext_iff.mpr ⟨h, h2⟩
    · rw [if_neg h] at hab
      rw [if_neg (Ne.symm h)] at hba
      have := bytesLt_asymm _ _ hab
      rw [hba] at this
      exact absurd this (by simp)⟩

/-! ## Helper lemmas: the header map -/

theorem lowerChar_idem (c : Nat) : lowerChar (lowerChar c) = lowerChar c := by
  unfold lowerChar
  split_ifs <;> omega

theorem lowerBytes_idem (l : List Nat) : lowerBytes (lowerBytes l) = lowerBytes l := by
  unfold lowerBytes
  rw [List.map_map]
  exact List.map_congr_left fun c _ => lowerChar_idem c

theorem mem_insertSorted {k v : List Nat} {m : List HPair} {q : HPair}
    (h : q ∈ insertSorted k v m) : q = (k, v) ∨ q ∈ m := by
  induction m with
  | nil =>
    simp [insertSorted] at h
    exact Or.inl h
  | cons p rest ih =>
    unfold insertSorted at h
    split_ifs at h
    · rcases List.mem_cons.mp h with h | h
      · exact Or.inl h
      · exact Or.inr (List.mem_cons.mpr (Or.inr h))
    · rcases List.mem_cons.mp h with h | h
      · exact Or.inl h
      · exact Or.inr h
    · rcases List.mem_cons.mp h with h | h
      · exact Or.inr (List.mem_cons.mpr (Or.inl h))
      · rcases ih h with h | h
        · exact Or.inl h
        · exact Or.inr (List.mem_cons.mpr (Or.inr h))

theorem collectHeaders_keys_lower (l : List HPair) :
    ∀ q ∈ collectHeaders l, lowerBytes q.1 = q.1 := by
  suffices haux : ∀ (l : List HPair) (m : List HPair),
      (∀ q ∈ m, lowerBytes q.1 = q.1) →
      ∀ q ∈ l.foldl (fun m p => insertSorted (lowerBytes p.1) p.2 m) m, lowerBytes q.1 = q.1 by
    intro q hq
    exact haux l [] (by intro q hq; simp at hq) q hq
  intro l
  induction l with
  | nil =>
    intro m hm q hq
    exact hm q hq
  | cons p rest ih =>
    intro m hm q hq
    simp only [List.foldl_cons] at hq
    refine ih _ ?_ q hq
    intro q' hq'
    rcases mem_insertSorted hq' with h | h
    · rw [h]
      exact lowerBytes_idem p.1
    · exact hm q' h

theorem lookupH_insertSorted (k k' v : List Nat) (m : List HPair) :
    lookupH k (insertSorted k' v m) = if k' = k then some v else lookupH k m := by
  induction m with
  | nil =>
    simp [insertSorted, lookupH]
  | cons p rest ih =>
    by_cases h1 : k' = p.1
    · rw [show insertSorted k' v (p :: rest) = (k', v) :: rest by
        unfold insertSorted; rw [if_pos h1]]
      by_cases hk : k' = k
      · simp [lookupH, hk]
      · have hpk : ¬p.1 = k := by rw [← h1]; exact hk
        simp [lookupH, hk, hpk]
    · by_cases h2 : bytesLt k' p.1
      · rw [show insertSorted k' v (p :: rest) = (k', v) :: p :: rest by
          unfold insertSorted; rw [if_neg h1, if_pos h2]]
        by_cases hk : k' = k
        · simp [lookupH, hk]
        · simp [lookupH, hk]
      · rw [show insertSorted k' v (p :: rest) = p :: insertSorted k' v rest by
          simp only [insertSorted]; rw [if_neg h1, if_neg h2]]
        by_cases hpk : p.1 = k
        · have hk : ¬k' = k := by rw [← hpk]; exact h1
          simp [lookupH, hpk, hk]
        · simp [lookupH, hpk, ih]

theorem lookupH_collect_lastWins (l : List HPair) (k : List Nat) :
    lookupH k (collectHeaders l) =
      lastWins k (l.map fun p => (lowerBytes p.1, p.2)) := by
  suffices haux : ∀ m, lookupH k (l.foldl (fun m p => insertSorted (lowerBytes p.1) p.2 m) m)
      = (match lastWins k (l.map fun p => (lowerBytes p.1, p.2)) with
         | some v => some v
         | none => lookupH k m) by
    rw [collectHeaders, haux []]
    cases lastWins k (l.map fun p => (lowerBytes p.1, p.2)) with
    | none => rfl
    | some v => rfl
  induction l with
  | nil =>
    intro m
    simp [lastWins]
  | cons p rest ih =>
    intro m
    simp only [List.foldl_cons, List.map_cons, lastWins]
    rw [ih]
    cases lastWins k (rest.map fun p => (lowerBytes p.1, p.2)) with
    | some v => rfl
    | none =>
      simp only [lookupH_insertSorted]
      by_cases hk : lowerBytes p.1 = k
      · simp [hk]
      · simp [hk]

theorem insertSorted_append_gt (k v : List Nat) (m : List HPair)
    (hm : ∀ q ∈ m, bytesLt q.1 k = true) :
    insertSorted k v m = m ++ [(k, v)] := by
  induction m with
  | nil => rfl
  | cons p rest ih =>
    have hp := hm p (by simp)
    unfold insertSorted
    rw [if_neg, if_neg]
    · rw [ih fun q hq => hm q (by simp [hq])]
      rfl
    · intro hlt
      have := bytesLt_asymm _ _ hp
      rw [hlt] at this
      exact absurd this (by simp)
    · intro he
      rw [he] at hp
      rw [bytesLt_irrefl] at hp
      exact absurd hp (by simp)

theorem collectHeaders_canonical (l : List HPair)
    (hsort : l.Pairwise fun a b => bytesLt a.1 b.1 = true)
    (hlow : ∀ q ∈ l, lowerBytes q.1 = q.1) :
    collectHeaders l = l := by
  suffices haux : ∀ (l m : List HPair),
      l.Pairwise (fun a b => bytesLt a.1 b.1 = true) →
      (∀ q ∈ l, lowerBytes q.1 = q.1) →
      (∀ q ∈ m, ∀ q' ∈ l, bytesLt q.1 q'.1 = true) →
      l.foldl (fun m p => insertSorted (lowerBytes p.1) p.2 m) m = m ++ l by
    rw [collectHeaders, haux l [] hsort hlow (by intro q hq; simp at hq)]
    rfl
  intro l
  induction l with
  | nil =>
    intro m _ _ _
    simp
  | cons p rest ih =>
    intro m hsort hlow hm
    simp only [List.foldl_cons]
    rw [hlow p (by simp), insertSorted_append_gt p.1 p.2 m
      (fun q hq => hm q hq p (by simp)), Prod.mk.eta]
    rw [ih (m ++ [p]) (List.pairwise_cons.mp hsort).2
      (fun q hq => hlow q (by simp [hq])) ?_]
    · simp
    · intro q hq q' hq'
      rcases List.mem_append.mp hq with h | h
      · exact hm q h q' (by simp [hq'])
      · simp at h
        subst h
        exact (List.pairwise_cons.mp hsort).1 q' hq'

/-! ## Helper lemmas: parser inversion -/

theorem takeWhile_nil_dropWhile {p : Nat → Bool} {l : List Nat}
    (h : l.takeWhile p = []) : l.dropWhile p = l := by
  cases l with
  | nil => rfl
  | cons c cs =>
    rw [List.takeWhile_cons] at h
    by_cases hc : p c
    · rw [if_pos hc] at h
      simp at h
    · rw [List.dropWhile_cons, if_neg hc]

theorem takeWhile_ne_nil_head {p : Nat → Bool} {l : List Nat}
    (h : l.takeWhile p ≠ []) : ∃ c cs, l = c :: cs ∧ p c = true := by
  cases l with
  | nil => exact absurd rfl h
  | cons c cs =>
    refine ⟨c, cs, rfl, ?_⟩
    by_cases hc : p c
    · exact hc
    · rw [List.takeWhile_cons, if_neg hc] at h
      exact absurd rfl h

theorem request_line_parser_inv {input rem : List Nat} {rl : RequestLine}
    (h : RequestLine.parser input = some (rem, rl)) :
    rl.path ≠ [] ∧ ∀ c ∈ rl.path, is_whitespace c = false := by
  unfold RequestLine.parser at h
  simp only [Option.bind_eq_bind, Option.bind_eq_some] at h
  obtain ⟨⟨r1, m⟩, hm, h⟩ := h
  obtain ⟨⟨r2, sp⟩, hsp, h⟩ := h
  obtain ⟨⟨r4, sp2⟩, hsp2, h⟩ := h
  obtain ⟨⟨r5, ver⟩, hvp, h⟩ := h
  obtain ⟨⟨r6, tg⟩, htg, h⟩ := h
  dsimp only at hsp hsp2 hvp htg h
  have hrl : rl = ⟨m, (takeTillP is_whitespace r2).2, ver⟩ := by
    simp only [pure, Option.some.injEq, Prod.mk.injEq] at h
    exact h.2.symm
  have hpath : rl.path = r2.takeWhile fun c => !is_whitespace c := by
    rw [hrl]
    rfl
  constructor
  · -- nonemptiness: the second space1 run succeeded right after the path
    intro hnil
    rw [hpath] at hnil
    have hdrop : (takeTillP is_whitespace r2).1 = r2 := by
      unfold takeTillP
      exact takeWhile_nil_dropWhile hnil
    obtain ⟨-, -, htne⟩ := takeWhile1P_eq_some hsp2
    rw [hdrop] at htne
    obtain ⟨c, cs, hcons, hc⟩ := takeWhile_ne_nil_head htne
    obtain ⟨-, hr2, -⟩ := takeWhile1P_eq_some hsp
    have hnot := head_dropWhile_not (p := is_space) r1 c
    rw [← hr2] at hnot
    have hfalse := hnot (by rw [hcons]; rfl)
    rw [hc] at hfalse
    exact absurd hfalse (by simp)
  · intro c hc
    rw [hpath] at hc
    have := List.mem_takeWhile_imp hc
    simp at this
    simp [this]

theorem request_parser_inv {input rem : List Nat} {req : Request}
    (h : Request.parser input = some (rem, req)) :
    ∃ r1 raw, RequestLine.parser input = some (r1, req.req_line) ∧
      req.headers = collectHeaders raw := by
  unfold Request.parser at h
  simp only [Option.bind_eq_bind, Option.bind_eq_some] at h
  obtain ⟨⟨r1, rl⟩, hrl, h⟩ := h
  obtain ⟨⟨r2, raw⟩, hmany, h⟩ := h
  dsimp only at hmany h
  refine ⟨r1, raw, ?_, ?_⟩
  · cases htg : tagP (strBytes "\r\n") r2 with
    | none =>
      rw [htg] at h
      simp only [pure, Option.some.injEq, Prod.mk.injEq] at h
      rw [← h.2]
      exact hrl
    | some pr =>
      obtain ⟨r3, tg⟩ := pr
      rw [htg] at h
      simp only [pure, Option.some.injEq, Prod.mk.injEq] at h
      rw [← h.2]
      exact hrl
  · cases htg : tagP (strBytes "\r\n") r2 with
    | none =>
      rw [htg] at h
      simp only [pure, Option.some.injEq, Prod.mk.injEq] at h
      rw [← h.2]
    | some pr =>
      obtain ⟨r3, tg⟩ := pr
      rw [htg] at h
      simp only [pure, Option.some.injEq, Prod.mk.injEq] at h
      rw [← h.2]

/-! ## Helper lemmas: serializer -/

theorem sortPairs_eq_of_perm {l₁ l₂ : List HPair} (h : l₁.Perm l₂) :
    sortPairs l₁ = sortPairs l₂ :=
  List.eq_of_perm_of_sorted
    ((List.perm_insertionSort pairLe l₁).trans
      (h.trans (List.perm_insertionSort pairLe l₂).symm))
    (List.sorted_insertionSort pairLe l₁)
    (List.sorted_insertionSort pairLe l₂)

theorem pairLe_key_le {a b : HPair} (h : pairLe a b) : bytesLe a.1 b.1 = true := by
  unfold pairLe pairLeB at h
  by_cases he : a.1 = b.1
  · simp [bytesLe, he]
  · rw [if_neg he] at h
    unfold bytesLe
    rw [if_neg he]
    exact h

theorem status_code_text_spec (s : Status) :
    natDec (Status.code s) ++ [32] ++ Status.text s = specStatusBytes s := by
  cases s <;> decide

/-! ## Claim theorems -/

/-- C1, counterexample: the claim says an input with a valid request line and
well-formed header lines but no final blank line fails to parse; in fact the
code parses exactly the spec's example `"GET / HTTP/1.1\r\nHost: x\r\n"`
successfully, collecting the header and leaving `body = None` with an empty
remainder (the repository's own `test_request_parser` asserts this shape). -/
theorem c1_counterexample :
    Request.parser (strBytes "GET / HTTP/1.1\r\nHost: x\r\n")
      = some ([], ⟨⟨Method.Get, [47], ⟨1, 1⟩⟩, [(strBytes "host", strBytes "x")], none⟩) := by
  decide

/-- C1, amended: for every input made of a valid request line and zero or more
well-formed header lines with no final blank line, `Request::parser` succeeds,
consumes the whole input, collects the headers (names lower-cased), and yields
`body = None`. -/
theorem c1_missing_blank_line_parses (m : Method) (p : List Nat) (ver : Version)
    (hl : List HPair)
    (hp : p ≠ []) (hpw : ∀ c ∈ p, is_whitespace c = false)
    (hmaj : ver.major ≤ 255) (hmin : ver.minor ≤ 255)
    (hall : ∀ kv ∈ hl, ValidHeader kv) :
    Request.parser (Method.render m ++ [32] ++ p ++ [32] ++ Version.render ver
        ++ strBytes "\r\n" ++ headerLinesRender hl)
      = some ([], ⟨⟨m, p, ver⟩, collectHeaders hl, none⟩) := by
  have h := Request.parser_append_headers m p ver hl [] hp hpw hmaj hmin hall
    (by intro c hc; simp at hc)
  simp only [List.append_nil] at h
  exact h

/-- C1, witness of the amended theorem at the spec's own example input. -/
theorem c1_witness :
    Request.parser (Method.render Method.Get ++ [32] ++ [47] ++ [32]
        ++ Version.render ⟨1, 1⟩ ++ strBytes "\r\n"
        ++ headerLinesRender [(strBytes "Host", strBytes "x")])
      = some ([], ⟨⟨Method.Get, [47], ⟨1, 1⟩⟩,
          collectHeaders [(strBytes "Host", strBytes "x")], none⟩) :=
  c1_missing_blank_line_parses Method.Get [47] ⟨1, 1⟩ _
    (by decide) (by decide) (by decide) (by decide) (by decide)

/-- C2, counterexample: the claim says a blank line followed by zero bytes
parses to `body = None`; in fact nom's `rest` succeeds on empty input, so
`"GET / HTTP/1.1\r\n\r\n"` parses to `body = Some([])`. -/
theorem c2_counterexample :
    Request.parser (strBytes "GET / HTTP/1.1\r\n\r\n")
      = some ([], ⟨⟨Method.Get, [47], ⟨1, 1⟩⟩, [], some []⟩) ∧
    (some (([] : List Nat), (⟨⟨Method.Get, [47], ⟨1, 1⟩⟩, [], some []⟩ : Request))
      ≠ some (([] : List Nat), (⟨⟨Method.Get, [47], ⟨1, 1⟩⟩, [], none⟩ : Request))) := by
  decide

/-- C2, amended: whenever the header block is terminated by a blank CRLF line,
the parsed request has `body = Some(remaining bytes)` — `Some` of the empty
sequence when zero bytes remain, and `Some` of exactly the remaining bytes
(whitespace included) otherwise; it is the input with no blank line at all
that parses to `body = None`. -/
theorem c2_body_after_blank_line (m : Method) (p : List Nat) (ver : Version)
    (hl : List HPair) (tail : List Nat)
    (hp : p ≠ []) (hpw : ∀ c ∈ p, is_whitespace c = false)
    (hmaj : ver.major ≤ 255) (hmin : ver.minor ≤ 255)
    (hall : ∀ kv ∈ hl, ValidHeader kv) :
    Request.parser (Method.render m ++ [32] ++ p ++ [32] ++ Version.render ver
        ++ strBytes "\r\n" ++ headerLinesRender hl ++ strBytes "\r\n" ++ tail)
      = some ([], ⟨⟨m, p, ver⟩, collectHeaders hl, some tail⟩) := by
  have h := Request.parser_append_headers m p ver hl (strBytes "\r\n" ++ tail)
    hp hpw hmaj hmin hall
    (by intro c hc; rw [strBytes_crlf] at hc; simp at hc; subst hc; decide)
  rw [tagP_self_append] at h
  simp only [List.append_assoc] at h ⊢
  exact h

/-- C2, witness: a blank line followed by one whitespace byte yields
`body = Some([32])`. -/
theorem c2_witness :
    Request.parser (Method.render Method.Get ++ [32] ++ [47] ++ [32]
        ++ Version.render ⟨1, 1⟩ ++ strBytes "\r\n" ++ headerLinesRender []
        ++ strBytes "\r\n" ++ [32])
      = some ([], ⟨⟨Method.Get, [47], ⟨1, 1⟩⟩, collectHeaders [], some [32]⟩) :=
  c2_body_after_blank_line Method.Get [47] ⟨1, 1⟩ [] [32]
    (by decide) (by decide) (by decide) (by decide) (by decide)

/-- C3, counterexample: rendering with the claim's grammar (blank line emitted
unconditionally) is not inverted by the parser: for the request
`GET / HTTP/1.1` with no headers and no body, the rendered bytes parse back
with `body = Some([])`, not `body = None`. -/
theorem c3_counterexample :
    Request.parser (renderRequestSpec ⟨⟨Method.Get, [47], ⟨1, 1⟩⟩, [], none⟩)
        ≠ some ([], ⟨⟨Method.Get, [47], ⟨1, 1⟩⟩, [], none⟩) ∧
    Request.parser (renderRequestSpec ⟨⟨Method.Get, [47], ⟨1, 1⟩⟩, [], none⟩)
        = some ([], ⟨⟨Method.Get, [47], ⟨1, 1⟩⟩, [], some []⟩) := by
  decide

/-- C3, amended: round-trip of the wire request grammar holds when the blank
separator line is emitted only when a body is present (and trivially the raw
body after it), for every synthetic request whose path is nonempty without
whitespace bytes, whose version fields fit in eight bits, and whose header map
is canonical: keys strictly sorted, already lower-case, of letter/hyphen
bytes, with nonempty CRLF-free values. -/
theorem c3_render_parse_roundtrip (r : Request)
    (hp : r.req_line.path ≠ [])
    (hpw : ∀ c ∈ r.req_line.path, is_whitespace c = false)
    (hmaj : r.req_line.version.major ≤ 255) (hmin : r.req_line.version.minor ≤ 255)
    (hsort : r.headers.Pairwise fun a b => bytesLt a.1 b.1 = true)
    (hlow : ∀ kv ∈ r.headers, lowerBytes kv.1 = kv.1)
    (hall : ∀ kv ∈ r.headers, ValidHeader kv) :
    Request.parser (renderRequest r) = some ([], r) := by
  obtain ⟨⟨m, p, ver⟩, hl, body⟩ := r
  simp only at hp hpw hmaj hmin hsort hlow hall
  have hcanon : collectHeaders hl = hl := collectHeaders_canonical hl hsort hlow
  cases body with
  | none =>
    have h := Request.parser_append_headers m p ver hl [] hp hpw hmaj hmin hall
      (by intro c hc; simp at hc)
    simp only [List.append_nil] at h
    unfold renderRequest
    simp only [List.append_nil]
    rw [hcanon] at h
    exact h
  | some b =>
    have h := Request.parser_append_headers m p ver hl (strBytes "\r\n" ++ b)
      hp hpw hmaj hmin hall
      (by intro c hc; rw [strBytes_crlf] at hc; simp at hc; subst hc; decide)
    rw [tagP_self_append, hcanon] at h
    unfold renderRequest
    simp only [List.append_assoc] at h ⊢
    exact h

/-- C3, witness of the amended round-trip at a concrete POST request with one
header and a body. -/
theorem c3_witness :
    Request.parser (renderRequest ⟨⟨Method.Post, strBytes "/files/a", ⟨1, 1⟩⟩,
        [(strBytes "content-length", strBytes "2")], some (strBytes "hi")⟩)
      = some ([], ⟨⟨Method.Post, strBytes "/files/a", ⟨1, 1⟩⟩,
        [(strBytes "content-length", strBytes "2")], some (strBytes "hi")⟩) :=
  c3_render_parse_roundtrip _
    (by decide) (by decide) (by decide) (by decide) (by decide) (by decide) (by decide)

/-- C4: `Response::new(Ok).with_body(b"abc", "text/plain")` serializes to
exactly `HTTP/1.1 200 OK\r\ncontent-length: 3\r\ncontent-type: text/plain`
followed by the blank line and `abc` — `with_body` sets both `content-type`
and `content-length` from the given type and byte length. -/
theorem c4_with_body_serializes_exactly :
    Response.serialize
        ((Response.new Status.Ok).with_body (strBytes "abc") (strBytes "text/plain"))
      = strBytes "HTTP/1.1 200 OK\r\ncontent-length: 3\r\ncontent-type: text/plain\r\n\r\nabc" := by
  decide

/-- C5: serialization is deterministic — whatever order the `HashMap` hands
its entries to `serialize`, the output bytes are identical; the emitted header
sequence is sorted lexicographically by (lower-cased) key, for responses
satisfying the data-model invariant that stored keys are lower-cased; and the
blank CRLF line is emitted even with no headers and no body. -/
theorem c5_serialize_deterministic_sorted (r : Response) (it1 it2 : List HPair)
    (h1 : it1.Perm r.headers) (h2 : it2.Perm r.headers)
    (hlow : ∀ kv ∈ r.headers, lowerBytes kv.1 = kv.1) :
    serializeWithOrder r it1 = serializeWithOrder r it2 ∧
    (sortPairs it1).Pairwise
      (fun a b => bytesLe (lowerBytes a.1) (lowerBytes b.1) = true) ∧
    (r.headers = [] → r.body = none →
      r.serialize = r.status_line.render ++ strBytes "\r\n") := by
  refine ⟨?_, ?_, ?_⟩
  · unfold serializeWithOrder
    rw [sortPairs_eq_of_perm (h1.trans h2.symm)]
  · have hs : (sortPairs it1).Pairwise pairLe := List.sorted_insertionSort pairLe it1
    refine hs.imp_of_mem ?_
    intro a b ha hb hab
    have hma : a ∈ r.headers := h1.subset ((List.perm_insertionSort pairLe it1).subset ha)
    have hmb : b ∈ r.headers := h1.subset ((List.perm_insertionSort pairLe it1).subset hb)
    rw [hlow a hma, hlow b hmb]
    exact pairLe_key_le hab
  · intro hh hb
    unfold Response.serialize serializeWithOrder
    rw [hh, hb]
    simp [sortPairs, headerLinesRender]

/-- C5, witness: the serializer output of a two-header response is the same
for two different iteration orders of its header map. -/
theorem c5_witness :
    serializeWithOrder
        (((Response.new Status.Ok).with_header (strBytes "B") (strBytes "x")).with_header
          (strBytes "A") (strBytes "y"))
        [(strBytes "b", strBytes "x"), (strBytes "a", strBytes "y")]
      = serializeWithOrder
        (((Response.new Status.Ok).with_header (strBytes "B") (strBytes "x")).with_header
          (strBytes "A") (strBytes "y"))
        [(strBytes "a", strBytes "y"), (strBytes "b", strBytes "x")] :=
  (c5_serialize_deterministic_sorted _ _ _ (by decide) (by decide) (by decide)).1

/-- C6: a version token whose major or minor digit run exceeds 255 makes
`Version::parser` fail (`map_res` propagates the `u8` overflow as a parse
error, never wrapping), and a whole request carrying `HTTP/300.1` fails to
parse. -/
theorem c6_version_overflow_fails :
    (∀ ds1 ds2 rest : List Nat,
      ds1 ≠ [] → (∀ c ∈ ds1, is_digit c = true) →
      ds2 ≠ [] → (∀ c ∈ ds2, is_digit c = true) →
      (∀ c, rest.head? = some c → is_digit c = false) →
      (255 < digitsToNat ds1 ∨ 255 < digitsToNat ds2) →
      Version.parser (strBytes "HTTP/" ++ ds1 ++ strBytes "." ++ ds2 ++ rest) = none) ∧
    Request.parser (strBytes "GET / HTTP/300.1\r\n\r\n") = none := by
  constructor
  · intro ds1 ds2 rest h1ne h1d h2ne h2d hrest hover
    have ht1 : tagP (strBytes "HTTP/")
        (strBytes "HTTP/" ++ (ds1 ++ (strBytes "." ++ (ds2 ++ rest))))
        = some (ds1 ++ (strBytes "." ++ (ds2 ++ rest)), strBytes "HTTP/") :=
      tagP_self_append _ _
    have htw1 : takeWhile1P is_digit (ds1 ++ (strBytes "." ++ (ds2 ++ rest)))
        = some (strBytes "." ++ (ds2 ++ rest), ds1) :=
      takeWhile1P_exact _ h1ne h1d
        (by intro c hc; rw [strBytes_dot] at hc; simp at hc; subst hc; decide)
    by_cases h255 : digitsToNat ds1 ≤ 255
    · have hov2 : 255 < digitsToNat ds2 := by
        rcases hover with h | h
        · omega
        · exact h
      have hp1 : parseU8 ds1 = some (digitsToNat ds1) := by simp [parseU8, h255]
      have ht2 : tagP (strBytes ".") (strBytes "." ++ (ds2 ++ rest))
          = some (ds2 ++ rest, strBytes ".") := tagP_self_append _ _
      have htw2 : takeWhile1P is_digit (ds2 ++ rest) = some (rest, ds2) :=
        takeWhile1P_exact _ h2ne h2d hrest
      have hp2 : parseU8 ds2 = none := by
        simp [parseU8]
        omega
      simp [Version.parser, List.append_assoc, ht1, htw1, hp1, ht2, htw2, hp2]
    · have hp1 : parseU8 ds1 = none := by
        simp [parseU8]
        omega
      simp [Version.parser, List.append_assoc, ht1, htw1, hp1]
  · decide

/-- C6, witness of the general statement at the spec's `HTTP/300.1` token. -/
theorem c6_witness :
    Version.parser (strBytes "HTTP/" ++ strBytes "300" ++ strBytes "." ++ strBytes "1"
      ++ strBytes "\r\n") = none :=
  c6_version_overflow_fails.1 (strBytes "300") (strBytes "1") (strBytes "\r\n")
    (by decide) (by decide) (by decide) (by decide) (by decide) (by decide)

/-- C7: after every successful parse the header-map keys are fixed points of
lower-casing (so two names differing only in ASCII case land in one entry);
looking up the collected map returns the value of the last occurrence of a
(lower-cased) name; and the concrete duplicate-name input of the claim
resolves `User-Agent`/`user-agent` to the single entry `user-agent: b`. -/
theorem c7_header_names_lowercased_last_wins :
    (∀ (input rem : List Nat) (req : Request), Request.parser input = some (rem, req) →
      ∀ kv ∈ req.headers, lowerBytes kv.1 = kv.1) ∧
    (∀ (l : List HPair) (k : List Nat),
      lookupH k (collectHeaders l) = lastWins k (l.map fun p => (lowerBytes p.1, p.2))) ∧
    Request.parser (strBytes "GET / HTTP/1.1\r\nUser-Agent: a\r\nuser-agent: b\r\n\r\n")
      = some ([], ⟨⟨Method.Get, [47], ⟨1, 1⟩⟩,
          [(strBytes "user-agent", strBytes "b")], some []⟩) := by
  refine ⟨?_, lookupH_collect_lastWins, by decide⟩
  intro input rem req h kv hkv
  obtain ⟨r1, raw, -, hraw⟩ := request_parser_inv h
  rw [hraw] at hkv
  exact collectHeaders_keys_lower raw kv hkv

/-- C7, witness: the lower-case invariant applied to the surviving entry of
the duplicate-name parse. -/
theorem c7_witness :
    lowerBytes (strBytes "user-agent") = strBytes "user-agent" := by
  have h := c7_header_names_lowercased_last_wins.1
    (strBytes "GET / HTTP/1.1\r\nUser-Agent: a\r\nuser-agent: b\r\n\r\n") []
    ⟨⟨Method.Get, [47], ⟨1, 1⟩⟩, [(strBytes "user-agent", strBytes "b")], some []⟩
    (by decide)
  exact h (strBytes "user-agent", strBytes "b") (by decide)

/-- C8: `with_header("X","a")` then `with_header("X","b")` overwrites — the
serialized response is exactly `HTTP/1.1 200 OK` plus the single line `x: b`,
that header line occurs exactly once, and the byte of value `a` never occurs. -/
theorem c8_with_header_overwrite :
    Response.serialize (((Response.new Status.Ok).with_header (strBytes "X")
          (strBytes "a")).with_header (strBytes "X") (strBytes "b"))
        = strBytes "HTTP/1.1 200 OK\r\nx: b\r\n\r\n" ∧
    countSub (strBytes "x: b")
        (Response.serialize (((Response.new Status.Ok).with_header (strBytes "X")
          (strBytes "a")).with_header (strBytes "X") (strBytes "b"))) = 1 ∧
    countSub (strBytes "a")
        (Response.serialize (((Response.new Status.Ok).with_header (strBytes "X")
          (strBytes "a")).with_header (strBytes "X") (strBytes "b"))) = 0 := by
  decide

/-- C9: every serialized response opens with the status line
`HTTP/<major>.<minor> <code> <reason>\r\n` where code and reason are the fixed
pairs 200 OK, 201 Created, 400 Bad Request, 404 NOT FOUND,
500 Internal Server Error, byte-for-byte in that capitalization. -/
theorem c9_status_line_exact (r : Response) :
    ∃ t, r.serialize = Version.render r.status_line.version ++ [32]
      ++ specStatusBytes r.status_line.status ++ strBytes "\r\n" ++ t := by
  refine ⟨headerLinesRender (sortPairs r.headers) ++ strBytes "\r\n" ++ r.body.getD [], ?_⟩
  show Response.serialize r = _
  unfold Response.serialize serializeWithOrder StatusLine.render
  rw [← status_code_text_spec r.status_line.status]
  simp [List.append_assoc]

/-- C10: every successfully parsed request has a nonempty path containing no
space, tab, CR, or LF byte. -/
theorem c10_path_nonempty_no_whitespace (input rem : List Nat) (req : Request)
    (h : Request.parser input = some (rem, req)) :
    req.req_line.path ≠ [] ∧ ∀ c ∈ req.req_line.path, is_whitespace c = false := by
  obtain ⟨r1, raw, hrl, -⟩ := request_parser_inv h
  exact request_line_parser_inv hrl

/-- C10, witness at the minimal request `GET / HTTP/1.1` with blank line. -/
theorem c10_witness :
    ([47] : List Nat) ≠ [] ∧ ∀ c ∈ ([47] : List Nat), is_whitespace c = false :=
  c10_path_nonempty_no_whitespace (strBytes "GET / HTTP/1.1\r\n\r\n") []
    ⟨⟨Method.Get, [47], ⟨1, 1⟩⟩, [], some []⟩ (by decide)

end Http
